import Mathlib

/- Verification development for the CodeTextEditor repository (CodeSnip
   editor). The definitions below are a shallow embedding of the ignore-rule
   filter, the file-system helper layer and the document/tab manager of the
   source, and the theorems settle the frozen claims about them. String
   processing is carried out on the underlying character lists so that every
   definition evaluates by kernel reduction. -/

/-- Model of one parsed exclusion rule, mirroring the objects pushed by
FileTree.parseGitignore in src/editor/fileTree.js (lines 24 to 36). -/
structure IgnoreRule where
  pattern : String
  negated : Bool
deriving DecidableEq, Repr

/-- Character-list splitter mirroring the JavaScript String split method for
a one-character separator: split "a/b" gives two components, the empty
string gives one empty component, a trailing separator gives a trailing
empty component. -/
def splitChar (sep : Char) : List Char → List (List Char)
  | [] => [[]]
  | c :: cs =>
    let rest := splitChar sep cs
    if c = sep then [] :: rest
    else
      match rest with
      | [] => [[c]]
      | r :: rs => (c :: r) :: rs

/-- Trim helper mirroring the JavaScript String trim method: removes leading
and trailing whitespace characters. -/
def trimChars (l : List Char) : List Char :=
  ((l.dropWhile Char.isWhitespace).reverse.dropWhile Char.isWhitespace).reverse

/-- Embedding of FileTree.parseGitignore applied to one line: the line is
trimmed, blank lines and comment lines starting with a hash sign are
skipped, a leading exclamation mark negates the pattern and is trimmed off,
and an empty remaining pattern is skipped. -/
def parseLine (line : List Char) : Option IgnoreRule :=
  let trimmed := trimChars line
  match trimmed with
  | [] => none
  | c :: rest =>
    if c = '#' then none
    else if c = '!' then
      match trimChars rest with
      | [] => none
      | rawPattern => some ⟨rawPattern.asString, true⟩
    else some ⟨(c :: rest).asString, false⟩

/-- Embedding of FileTree.parseGitignore (src/editor/fileTree.js lines 24 to
36): the content is split on newlines and each line parsed in order. -/
def parseGitignore (content : String) : List IgnoreRule :=
  (splitChar '\n' content.toList).filterMap parseLine

/-- Suffixes of a string reachable by letting a star wildcard consume zero or
more characters: the star fragment built by FileTree.buildWildcardRegex is
dot-star, and a dot in a JavaScript regex matches any character except a
newline, so consumption stops at a newline. -/
def starSuffixes : List Char → List (List Char)
  | [] => [[]]
  | c :: cs => (c :: cs) :: (if c = '\n' then [] else starSuffixes cs)

/-- Embedding of the anchored regular expression produced by
FileTree.buildWildcardRegex (src/editor/fileTree.js lines 76 to 82) applied
through test: a star matches any run of non-newline characters, a question
mark matches one non-newline character, and every other character matches
itself literally, because the first replace escapes all other regex
metacharacters. -/
def globMatch : List Char → List Char → Bool
  | [], s => s.isEmpty
  | '*' :: ps, s => (starSuffixes s).any (fun suffix => globMatch ps suffix)
  | '?' :: ps, s =>
    match s with
    | [] => false
    | c :: cs => (c != '\n') && globMatch ps cs
  | p :: ps, s =>
    match s with
    | [] => false
    | c :: cs => (p == c) && globMatch ps cs

/-- Normalization applied by FileTree.matchesGitignore (src/editor/fileTree.js
line 39): one leading dot-slash or slash is stripped, then all trailing
slashes are stripped. -/
def normalizePath (l : List Char) : List Char :=
  let noLead :=
    match l with
    | '.' :: '/' :: rest => rest
    | '/' :: rest => rest
    | other => other
  (noLead.reverse.dropWhile (· = '/')).reverse

/-- Basename extraction used by FileTree.matchesGitignore (line 40): the last
component of the slash-split path. -/
def lastComponent (l : List Char) : List Char :=
  (splitChar '/' l).getLastD []

/-- Embedding of FileTree.ruleMatchesPath (src/editor/fileTree.js lines 52 to
74): a trailing slash restricts the rule to directories, a leading slash
anchors it to the full normalized path, a pattern without a slash is tested
against the basename, and any other pattern is tested against the normalized
path with and without a leading slash. -/
def ruleMatchesPath (pattern normalizedPath fileName : List Char)
    (isDirectory : Bool) : Bool :=
  let directoryOnly := pattern.getLast? = some '/'
  let cleanPattern := if directoryOnly then pattern.dropLast else pattern
  let anchored := cleanPattern.head? = some '/'
  let relativePattern := if anchored then cleanPattern.tail else cleanPattern
  if directoryOnly && !isDirectory then false
  else if anchored then globMatch relativePattern normalizedPath
  else if !(relativePattern.contains '/') then
    globMatch (if fileName.isEmpty then [] else relativePattern) fileName
  else
    globMatch relativePattern normalizedPath ||
    globMatch relativePattern ('/' :: normalizedPath)

/-- Embedding of FileTree.matchesGitignore (src/editor/fileTree.js lines 38
to 50): the rules are folded in file order, each matching rule overwriting
the verdict, so the last matching rule decides, and the initial verdict is
inclusion. -/
def matchesGitignore (patterns : List IgnoreRule) (filePath : String)
    (isDirectory : Bool) : Bool :=
  let normalizedPath := normalizePath filePath.toList
  let fileName := lastComponent normalizedPath
  patterns.foldl
    (fun ignored rule =>
      if ruleMatchesPath rule.pattern.toList normalizedPath fileName isDirectory
      then !rule.negated
      else ignored)
    false

/-- Verdict of the last element satisfying a test: the image of the last
such element under g, or the fallback when no element passes the test. -/
def lastDecision {α : Type} (p : α → Bool) (g : α → Bool) (l : List α)
    (fallback : Bool) : Bool :=
  match l.reverse.find? p with
  | some r => g r
  | none => fallback

/-- Fold lemma: a fold that overwrites the accumulator on every element
satisfying a test returns the image of the last such element, or the initial
accumulator when no element passes the test. -/
theorem foldl_if_last_decides {α : Type} (p : α → Bool) (g : α → Bool) :
    ∀ (l : List α) (init : Bool),
      l.foldl (fun b r => if p r then g r else b) init = lastDecision p g l init := by
  intro l
  induction l with
  | nil => intro init; rfl
  | cons r rs ih =>
    intro init
    simp only [List.foldl_cons, ih, lastDecision, List.reverse_cons, List.find?_append]
    cases h : rs.reverse.find? p with
    | some r' => simp
    | none => cases hp : p r <;> simp [List.find?, hp]

/-- C4: matchesGitignore evaluates all rules in file order and the last rule
matching the path decides, a later negated matching rule un-excluding an
earlier exclusion, while a path matched by no rule is included; concretely,
for the parsed rule file containing the line star-dot-log followed by the
negated line keep-dot-log, the path keep.log is included and the path
debug.log is excluded. -/
theorem matchesGitignore_last_match_wins :
    (∀ (patterns : List IgnoreRule) (filePath : String) (isDirectory : Bool),
      matchesGitignore patterns filePath isDirectory =
        lastDecision
          (fun rule => ruleMatchesPath rule.pattern.toList
            (normalizePath filePath.toList)
            (lastComponent (normalizePath filePath.toList))
            isDirectory)
          (fun rule => !rule.negated) patterns false)
    ∧ matchesGitignore (parseGitignore "*.log\n!keep.log") "keep.log" false = false
    ∧ matchesGitignore (parseGitignore "*.log\n!keep.log") "debug.log" false = true := by
  refine ⟨?_, by decide, by decide⟩
  intro patterns filePath isDirectory
  have h := foldl_if_last_decides
    (fun rule => ruleMatchesPath rule.pattern.toList (normalizePath filePath.toList)
      (lastComponent (normalizePath filePath.toList)) isDirectory)
    (fun rule => !rule.negated) patterns false
  unfold matchesGitignore
  exact h

/-- Kind tag of a filesystem entry, mirroring the kind field carried by the
File System Access handles used throughout the source. -/
inductive EntryKind where
  | file
  | directory
deriving DecidableEq, Repr

/-- Pure model of one on-disk entry, the shallow embedding of a handle: a
file handle with the file content, or a directory handle with the list of
its child entries in iteration order. -/
inductive FSEntry where
  | file (name : String) (content : String)
  | dir (name : String) (children : List FSEntry)

mutual
def FSEntry.deq : (a b : FSEntry) → Decidable (a = b)
  | .file n c, .file n' c' =>
    if h : n = n' ∧ c = c' then .isTrue (by rw [h.1, h.2])
    else .isFalse (by intro he; cases he; exact h ⟨rfl, rfl⟩)
  | .file _ _, .dir _ _ => .isFalse (by intro h; cases h)
  | .dir _ _, .file _ _ => .isFalse (by intro h; cases h)
  | .dir n ch, .dir n' ch' =>
    if h : n = n' then
      match FSEntry.deqList ch ch' with
      | .isTrue he => .isTrue (by rw [h, he])
      | .isFalse he => .isFalse (by intro hx; cases hx; exact he rfl)
    else .isFalse (by intro hx; cases hx; exact h rfl)

def FSEntry.deqList : (l l' : List FSEntry) → Decidable (l = l')
  | [], [] => .isTrue rfl
  | [], _ :: _ => .isFalse (by intro h; cases h)
  | _ :: _, [] => .isFalse (by intro h; cases h)
  | a :: l, b :: l' =>
    match FSEntry.deq a b with
    | .isTrue h1 =>
      match FSEntry.deqList l l' with
      | .isTrue h2 => .isTrue (by rw [h1, h2])
      | .isFalse h2 => .isFalse (by intro hx; cases hx; exact h2 rfl)
    | .isFalse h1 => .isFalse (by intro hx; cases hx; exact h1 rfl)
end

instance : DecidableEq FSEntry := FSEntry.deq

/-- Name of an entry, mirroring the name field of a handle. -/
def FSEntry.name : FSEntry → String
  | .file n _ => n
  | .dir n _ => n

/-- Kind of an entry, mirroring the kind field of a handle. -/
def FSEntry.kind : FSEntry → EntryKind
  | .file _ _ => .file
  | .dir _ _ => .directory

/-- Boolean directory test, mirroring the comparisons of kind against the
string directory in the source. -/
def FSEntry.isDir : FSEntry → Bool
  | .dir _ _ => true
  | .file _ _ => false

/-- Children of a directory handle as iterated by values calls; a file
handle has none. -/
def FSEntry.childList : FSEntry → List FSEntry
  | .file _ _ => []
  | .dir _ ch => ch

/-- Code-point comparison of two characters. The name tie-break in
FileSystem.readDirectory calls localeCompare, modeled here as code-point
lexicographic comparison. -/
def charCmp (c d : Char) : Ordering :=
  if c.toNat < d.toNat then .lt else if d.toNat < c.toNat then .gt else .eq

/-- Lexicographic comparison of two character lists built on charCmp. -/
def strCmp : List Char → List Char → Ordering
  | [], [] => .eq
  | [], _ :: _ => .lt
  | _ :: _, [] => .gt
  | c :: cs, d :: ds =>
    match charCmp c d with
    | .eq => strCmp cs ds
    | o => o

/-- Embedding of the sort comparator in FileSystem.readDirectory
(src/unnamed/part_003 lines 53 to 57): directories order before files, and
entries of the same kind are ordered by name comparison. -/
def cmpEntries (a b : FSEntry) : Ordering :=
  if a.isDir && !b.isDir then .lt
  else if !a.isDir && b.isDir then .gt
  else strCmp a.name.toList b.name.toList

/-- Non-strict order induced by the comparator: a sorts no later than b. -/
def entryLe (a b : FSEntry) : Prop := cmpEntries a b ≠ .gt

instance : DecidableRel entryLe := fun a b => by
  unfold entryLe; infer_instance

theorem charCmp_swap (c d : Char) : charCmp c d = (charCmp d c).swap := by
  unfold charCmp
  by_cases h1 : c.toNat < d.toNat
  · have h2 : ¬ d.toNat < c.toNat := by omega
    simp [h1, h2, Ordering.swap]
  · by_cases h2 : d.toNat < c.toNat
    · simp [h1, h2, Ordering.swap]
    · simp [h1, h2, Ordering.swap]

theorem charCmp_lt_iff {c d : Char} : charCmp c d = .lt ↔ c.toNat < d.toNat := by
  unfold charCmp
  by_cases h1 : c.toNat < d.toNat
  · simp [h1]
  · by_cases h2 : d.toNat < c.toNat <;> simp [h1, h2]

theorem charCmp_gt_iff {c d : Char} : charCmp c d = .gt ↔ d.toNat < c.toNat := by
  unfold charCmp
  by_cases h1 : c.toNat < d.toNat
  · simp [h1]
    omega
  · by_cases h2 : d.toNat < c.toNat <;> simp [h1, h2]

theorem charCmp_eq_iff {c d : Char} : charCmp c d = .eq ↔ c.toNat = d.toNat := by
  unfold charCmp
  by_cases h1 : c.toNat < d.toNat
  · simp [h1]
    omega
  · by_cases h2 : d.toNat < c.toNat <;> simp [h1, h2] <;> omega

theorem strCmp_swap : ∀ a b : List Char, strCmp a b = (strCmp b a).swap
  | [], [] => rfl
  | [], _ :: _ => rfl
  | _ :: _, [] => rfl
  | c :: cs, d :: ds => by
    simp only [strCmp]
    rw [charCmp_swap c d]
    cases h : charCmp d c <;> simp [Ordering.swap, strCmp_swap cs ds]

theorem strCmp_le_trans : ∀ (a b c : List Char),
    strCmp a b ≠ .gt → strCmp b c ≠ .gt → strCmp a c ≠ .gt
  | [], _, [] => by intro _ _; simp [strCmp]
  | [], _, _ :: _ => by intro _ _; simp [strCmp]
  | _ :: _, [], _ => by intro h1 _; exact absurd rfl h1
  | _ :: _, _ :: _, [] => by intro _ h2; exact absurd rfl h2
  | x :: xs, y :: ys, z :: zs => by
    intro h1 h2
    simp only [strCmp] at h1 h2 ⊢
    rcases hxy : charCmp x y with _ | _ | _ <;> rw [hxy] at h1 <;>
      rcases hyz : charCmp y z with _ | _ | _ <;> rw [hyz] at h2
    · have hxz : charCmp x z = .lt := by
        rw [charCmp_lt_iff] at hxy hyz ⊢; omega
      simp [hxz]
    · have hxz : charCmp x z = .lt := by
        rw [charCmp_lt_iff] at hxy ⊢; rw [charCmp_eq_iff] at hyz; omega
      simp [hxz]
    · exact absurd rfl h2
    · have hxz : charCmp x z = .lt := by
        rw [charCmp_eq_iff] at hxy; rw [charCmp_lt_iff] at hyz ⊢; omega
      simp [hxz]
    · have hxz : charCmp x z = .eq := by
        rw [charCmp_eq_iff] at hxy hyz ⊢; omega
      simp only [hxz]
      exact strCmp_le_trans xs ys zs h1 h2
    · exact absurd rfl h2
    · exact absurd rfl h1
    · exact absurd rfl h1
    · exact absurd rfl h1

theorem cmpEntries_swap (a b : FSEntry) : cmpEntries a b = (cmpEntries b a).swap := by
  unfold cmpEntries
  cases ha : a.isDir <;> cases hb : b.isDir <;> simp [ha, hb] <;>
    first
      | rfl
      | exact strCmp_swap _ _

instance : IsTotal FSEntry entryLe := by
  constructor
  intro a b
  unfold entryLe
  rw [cmpEntries_swap a b]
  cases cmpEntries b a <;> simp [Ordering.swap]

instance : IsTrans FSEntry entryLe := by
  constructor
  intro a b c h1 h2
  unfold entryLe cmpEntries at *
  cases ha : a.isDir <;> cases hb : b.isDir <;> cases hc : c.isDir <;>
    simp [ha, hb, hc] at h1 h2 ⊢ <;>
    exact strCmp_le_trans _ _ _ h1 h2

/-- Embedding of the sort call in FileSystem.readDirectory (src/unnamed/
part_003 lines 53 to 57): the sort with the directories-first comparator is
modeled by insertion sort for that comparator, which produces a stable
sorted permutation exactly as the JavaScript sort does. -/
def sortEntries (l : List FSEntry) : List FSEntry := List.insertionSort entryLe l

theorem sortEntries_perm (l : List FSEntry) : (sortEntries l).Perm l :=
  List.perm_insertionSort entryLe l

theorem sortEntries_sorted (l : List FSEntry) :
    (sortEntries l).Pairwise entryLe :=
  List.sorted_insertionSort entryLe l

theorem mem_sortEntries {x : FSEntry} {l : List FSEntry} :
    x ∈ sortEntries l ↔ x ∈ l :=
  List.mem_insertionSort entryLe

/-- Model of the TreeEntry records produced by the file-system layer: name,
kind, the handle itself, the parent directory handle, the joined path, the
cached children and the childrenLoaded flag. -/
inductive TreeEntry where
  | mk (name : String) (kind : EntryKind) (handle : FSEntry)
       (parentHandle : FSEntry) (path : String)
       (children : Option (List TreeEntry)) (childrenLoaded : Bool)

def TreeEntry.name : TreeEntry → String
  | .mk n _ _ _ _ _ _ => n

def TreeEntry.kind : TreeEntry → EntryKind
  | .mk _ k _ _ _ _ _ => k

def TreeEntry.handle : TreeEntry → FSEntry
  | .mk _ _ h _ _ _ _ => h

def TreeEntry.parentHandle : TreeEntry → FSEntry
  | .mk _ _ _ p _ _ _ => p

def TreeEntry.path : TreeEntry → String
  | .mk _ _ _ _ p _ _ => p

def TreeEntry.children : TreeEntry → Option (List TreeEntry)
  | .mk _ _ _ _ _ c _ => c

def TreeEntry.childrenLoaded : TreeEntry → Bool
  | .mk _ _ _ _ _ _ l => l

/-- Path join used across the source, mirroring the template literal in
FileSystem.readDirectoryLevel: the parent path and the name joined by a
slash, or the bare name when the parent path is empty. -/
def joinPath (parentPath name : String) : String :=
  if parentPath = "" then name else parentPath ++ "/" ++ name

/-- Embedding of FileSystem.readDirectoryLevel (src/unnamed/part_003 lines
60 to 71) composed with FileSystem.readDirectory (lines 44 to 58): the
immediate children of the directory handle are sorted directories-first and
by name, then mapped to TreeEntry stubs annotated with the joined path, with
children null and childrenLoaded false; there is no recursion into
subdirectories. -/
def readDirectoryLevel (handle : FSEntry) (parentPath : String) : List TreeEntry :=
  (sortEntries handle.childList).map (fun e =>
    TreeEntry.mk e.name e.kind e handle (joinPath parentPath e.name) none false)

/-- C8: readDirectoryLevel returns exactly the immediate children of the
directory handle (a permutation of them, with no recursion), sorted so that
every directory comes before every file and entries of equal kind are in
lexicographic name order, and every returned stub has its path equal to the
parent path joined with its name by a slash, childrenLoaded false and
children null. -/
theorem readDirectoryLevel_contract (handle : FSEntry) (parentPath : String) :
    ((readDirectoryLevel handle parentPath).map TreeEntry.handle).Perm handle.childList
    ∧ (readDirectoryLevel handle parentPath).Pairwise
        (fun a b => (a.kind = EntryKind.directory ∧ b.kind = EntryKind.file)
          ∨ (a.kind = b.kind ∧ strCmp a.name.toList b.name.toList ≠ Ordering.gt))
    ∧ ∀ t ∈ readDirectoryLevel handle parentPath,
        t.path = joinPath parentPath t.name
        ∧ t.childrenLoaded = false
        ∧ t.children = none
        ∧ t.name = t.handle.name
        ∧ t.kind = t.handle.kind
        ∧ t.parentHandle = handle := by
  refine ⟨?_, ?_, ?_⟩
  · have hmap : (readDirectoryLevel handle parentPath).map TreeEntry.handle
        = sortEntries handle.childList := by
      unfold readDirectoryLevel
      rw [List.map_map]
      have he : (TreeEntry.handle ∘ fun e =>
          TreeEntry.mk e.name e.kind e handle (joinPath parentPath e.name) none false)
          = id := by
        funext e; rfl
      rw [he, List.map_id]
    rw [hmap]
    exact sortEntries_perm _
  · unfold readDirectoryLevel
    rw [List.pairwise_map]
    apply (sortEntries_sorted handle.childList).imp
    intro a b hab
    unfold entryLe cmpEntries at hab
    simp only [TreeEntry.kind, TreeEntry.name]
    cases ha : a.isDir <;> cases hb : b.isDir <;> rw [ha, hb] at hab <;>
      simp only [Bool.true_and, Bool.false_and, Bool.and_true, Bool.and_false,
        Bool.not_true, Bool.not_false, if_true, if_false] at hab
    · right
      cases a <;> cases b <;> simp_all [FSEntry.isDir, FSEntry.kind]
    · exact absurd rfl hab
    · left
      cases a <;> cases b <;> simp_all [FSEntry.isDir, FSEntry.kind]
    · right
      cases a <;> cases b <;> simp_all [FSEntry.isDir, FSEntry.kind]
  · intro t ht
    unfold readDirectoryLevel at ht
    rw [List.mem_map] at ht
    obtain ⟨e, _, rfl⟩ := ht
    exact ⟨rfl, rfl, rfl, rfl, rfl, rfl⟩

theorem sizeOf_sortEntries (l : List FSEntry) : sizeOf (sortEntries l) = sizeOf l :=
  (sortEntries_perm l).sizeOf_eq_sizeOf

/-- Record pushed by FileTree.collectAllFiles for one file: the name, the
joined path and the handle, the handle being modeled by the entry itself
whose content is the file content. -/
structure FileRef where
  name : String
  path : String
  content : String
deriving DecidableEq, Repr

mutual
/-- Embedding of the loop body of FileTree.collectAllFiles
(src/editor/fileTree.js lines 320 to 338) for one entry of a level: a file
not matching the ignore rules contributes its record, a directory not
matching the ignore rules contributes its recursive collection, and an
entry matching the rules contributes nothing - in particular an excluded
directory is pruned without its descendants being visited. -/
def collectEntry (pats : List IgnoreRule) : FSEntry → String → List FileRef
  | .file n c, parentPath =>
    if matchesGitignore pats (joinPath parentPath n) false then []
    else [⟨n, joinPath parentPath n, c⟩]
  | .dir n ch, parentPath =>
    if matchesGitignore pats (joinPath parentPath n) true then []
    else collectList pats (sortEntries ch) (joinPath parentPath n)
termination_by e _ => sizeOf e
decreasing_by
  all_goals simp only [sizeOf_sortEntries]
  all_goals simp

/-- Iteration of the collectAllFiles loop over the sorted entries of one
directory level, concatenating the per-entry contributions in order. -/
def collectList (pats : List IgnoreRule) : List FSEntry → String → List FileRef
  | [], _ => []
  | e :: rest, parentPath =>
    collectEntry pats e parentPath ++ collectList pats rest parentPath
termination_by l _ => sizeOf l
decreasing_by
  all_goals simp
  all_goals omega
end

/-- Embedding of FileTree.collectAllFiles (src/editor/fileTree.js lines 320
to 338): the level read through readDirectoryLevel is the sorted child list
with joined paths, and the loop is collectList; the handle argument is given
by its child list. -/
def collectAllFiles (pats : List IgnoreRule) (children : List FSEntry)
    (parentPath : String) : List FileRef :=
  collectList pats (sortEntries children) parentPath

/-- Specification-side record for one file of the full unfiltered walk: the
file name, its joined path, its content and the joined paths of all
directories strictly between the walk root and the file. -/
structure AnnFile where
  name : String
  path : String
  content : String
  ancestors : List String
deriving DecidableEq, Repr

mutual
/-- Specification-side unfiltered walk of one entry, recording for every
file its path and the paths of all ancestor directories below the walk
root. Modelled from the spec wording of the full-file enumeration, used
only as the reference point of the pruning characterization. -/
def annEntry : FSEntry → String → List AnnFile
  | .file n c, parentPath => [⟨n, joinPath parentPath n, c, []⟩]
  | .dir n ch, parentPath =>
    (annList ch (joinPath parentPath n)).map
      (fun a => ⟨a.name, a.path, a.content, joinPath parentPath n :: a.ancestors⟩)

/-- Specification-side unfiltered walk of a list of entries. -/
def annList : List FSEntry → String → List AnnFile
  | [], _ => []
  | e :: rest, parentPath => annEntry e parentPath ++ annList rest parentPath
end

theorem mem_collectList {pats : List IgnoreRule} (l : List FSEntry)
    (parentPath : String) (fr : FileRef) :
    fr ∈ collectList pats l parentPath ↔
      ∃ e ∈ l, fr ∈ collectEntry pats e parentPath := by
  induction l with
  | nil => simp [collectList]
  | cons e rest ih => simp [collectList, ih]

theorem mem_annList (l : List FSEntry) (parentPath : String) (a : AnnFile) :
    a ∈ annList l parentPath ↔ ∃ e ∈ l, a ∈ annEntry e parentPath := by
  induction l with
  | nil => simp [annList]
  | cons e rest ih => simp [annList, ih]

theorem mem_collectEntry_bounded (pats : List IgnoreRule) :
    ∀ (N : ℕ) (e : FSEntry), sizeOf e ≤ N →
      ∀ (parentPath : String) (fr : FileRef),
      fr ∈ collectEntry pats e parentPath ↔
        ∃ anc : List String,
          (⟨fr.name, fr.path, fr.content, anc⟩ : AnnFile) ∈ annEntry e parentPath
          ∧ matchesGitignore pats fr.path false = false
          ∧ ∀ d ∈ anc, matchesGitignore pats d true = false := by
  intro N
  induction N with
  | zero =>
    intro e he
    exfalso
    cases e <;> simp at he
  | succ N ih =>
    intro e he parentPath fr
    obtain ⟨fn, fp, fc⟩ := fr
    match e with
    | .file n c =>
      by_cases hmg : matchesGitignore pats (joinPath parentPath n) false
      · rw [collectEntry, if_pos hmg]
        simp only [List.not_mem_nil, false_iff, annEntry]
        rintro ⟨anc, hmem, hfile, -⟩
        simp only [List.mem_singleton, AnnFile.mk.injEq] at hmem
        obtain ⟨-, h2, -, -⟩ := hmem
        rw [h2] at hfile
        rw [hmg] at hfile
        cases hfile
      · rw [collectEntry, if_neg hmg]
        simp only [annEntry]
        constructor
        · intro hmem
          simp only [List.mem_singleton, FileRef.mk.injEq] at hmem
          obtain ⟨h1, h2, h3⟩ := hmem
          refine ⟨[], ?_, ?_, ?_⟩
          · simp [h1, h2, h3]
          · rw [h2]
            simpa using hmg
          · intro d hd
            cases hd
        · rintro ⟨anc, hmem, -, -⟩
          simp only [List.mem_singleton, AnnFile.mk.injEq] at hmem
          obtain ⟨h1, h2, h3, -⟩ := hmem
          simp [h1, h2, h3]
    | .dir n ch =>
      have ihch : ∀ e' ∈ ch, ∀ (pp : String) (fr' : FileRef),
          fr' ∈ collectEntry pats e' pp ↔
            ∃ anc : List String,
              (⟨fr'.name, fr'.path, fr'.content, anc⟩ : AnnFile) ∈ annEntry e' pp
              ∧ matchesGitignore pats fr'.path false = false
              ∧ ∀ d ∈ anc, matchesGitignore pats d true = false := by
        intro e' he' pp fr'
        apply ih
        have h1 := List.sizeOf_lt_of_mem he'
        have h2 : sizeOf (FSEntry.dir n ch) = 1 + sizeOf n + sizeOf ch := by simp
        omega
      by_cases hmg : matchesGitignore pats (joinPath parentPath n) true
      · rw [collectEntry, if_pos hmg]
        simp only [List.not_mem_nil, false_iff, annEntry]
        rintro ⟨anc, hmem, -, hanc⟩
        simp only [List.mem_map, AnnFile.mk.injEq] at hmem
        obtain ⟨a, -, ⟨-, -, -, hanc'⟩⟩ := hmem
        have : matchesGitignore pats (joinPath parentPath n) true = false := by
          apply hanc
          rw [← hanc']
          exact List.mem_cons_self _ _
        rw [hmg] at this
        cases this
      · rw [collectEntry, if_neg hmg]
        rw [mem_collectList]
        constructor
        · rintro ⟨e', he', hfe⟩
          rw [mem_sortEntries] at he'
          rw [ihch e' he' (joinPath parentPath n) ⟨fn, fp, fc⟩] at hfe
          obtain ⟨anc, hmem, hfile, hanc⟩ := hfe
          refine ⟨joinPath parentPath n :: anc, ?_, hfile, ?_⟩
          · simp only [annEntry, List.mem_map]
            refine ⟨⟨fn, fp, fc, anc⟩, ?_, rfl⟩
            rw [mem_annList]
            exact ⟨e', he', hmem⟩
          · intro d hd
            rcases List.mem_cons.mp hd with h | h
            · rw [h]
              simpa using hmg
            · exact hanc d h
        · rintro ⟨anc, hmem, hfile, hanc⟩
          simp only [annEntry, List.mem_map, AnnFile.mk.injEq] at hmem
          obtain ⟨a, hamem, ⟨hn, hp, hc, hancs⟩⟩ := hmem
          rw [mem_annList] at hamem
          obtain ⟨e', he', hae⟩ := hamem
          refine ⟨e', mem_sortEntries.mpr he', ?_⟩
          rw [ihch e' he' (joinPath parentPath n) ⟨fn, fp, fc⟩]
          refine ⟨a.ancestors, ?_, hfile, ?_⟩
          · have ha : a = ⟨fn, fp, fc, a.ancestors⟩ := by
              obtain ⟨an, ap, ac, aa⟩ := a
              simp at hn hp hc ⊢
              exact ⟨hn, hp, hc⟩
            rw [← ha]
            exact hae
          · intro d hd
            apply hanc
            rw [← hancs]
            exact List.mem_cons_of_mem _ hd

theorem mem_collectEntry_iff (pats : List IgnoreRule) (e : FSEntry)
    (parentPath : String) (fr : FileRef) :
    fr ∈ collectEntry pats e parentPath ↔
      ∃ anc : List String,
        (⟨fr.name, fr.path, fr.content, anc⟩ : AnnFile) ∈ annEntry e parentPath
        ∧ matchesGitignore pats fr.path false = false
        ∧ ∀ d ∈ anc, matchesGitignore pats d true = false :=
  mem_collectEntry_bounded pats (sizeOf e) e (le_refl _) parentPath fr

/-- Concrete project tree for the pruning example: a directory build holding
out.txt, and a sibling file a.txt at the root. -/
def sampleProject : List FSEntry :=
  [FSEntry.dir "build" [FSEntry.file "out.txt" "object"],
   FSEntry.file "a.txt" "alpha"]

/-- C5: a file record is returned by the recursive walk collectAllFiles
exactly when the unfiltered walk reaches it, its own path does not match the
ignore rules as a file, and no ancestor directory path below the walk root
matches the ignore rules as a directory - so a directory whose path matches
an ignore rule is pruned entirely and none of its descendants are returned.
Concretely, under the single directory-only rule build-slash, the file
build/out.txt is absent from the result while the sibling a.txt is
returned. -/
theorem collectAllFiles_prunes_ignored_dirs :
    (∀ (pats : List IgnoreRule) (children : List FSEntry) (parentPath : String)
        (fr : FileRef),
      fr ∈ collectAllFiles pats children parentPath ↔
        ∃ anc : List String,
          (⟨fr.name, fr.path, fr.content, anc⟩ : AnnFile) ∈ annList children parentPath
          ∧ matchesGitignore pats fr.path false = false
          ∧ ∀ d ∈ anc, matchesGitignore pats d true = false)
    ∧ (∀ fr ∈ collectAllFiles (parseGitignore "build/") sampleProject "",
        fr.path ≠ "build/out.txt")
    ∧ (⟨"a.txt", "a.txt", "alpha"⟩ : FileRef) ∈
        collectAllFiles (parseGitignore "build/") sampleProject "" := by
  have hmain : ∀ (pats : List IgnoreRule) (children : List FSEntry)
      (parentPath : String) (fr : FileRef),
      fr ∈ collectAllFiles pats children parentPath ↔
        ∃ anc : List String,
          (⟨fr.name, fr.path, fr.content, anc⟩ : AnnFile) ∈ annList children parentPath
          ∧ matchesGitignore pats fr.path false = false
          ∧ ∀ d ∈ anc, matchesGitignore pats d true = false := by
    intro pats children parentPath fr
    unfold collectAllFiles
    rw [mem_collectList]
    constructor
    · rintro ⟨e, he, hfe⟩
      rw [mem_sortEntries] at he
      rw [mem_collectEntry_iff] at hfe
      obtain ⟨anc, hmem, hfile, hanc⟩ := hfe
      exact ⟨anc, (mem_annList _ _ _).mpr ⟨e, he, hmem⟩, hfile, hanc⟩
    · rintro ⟨anc, hmem, hfile, hanc⟩
      rw [mem_annList] at hmem
      obtain ⟨e, he, hmem⟩ := hmem
      exact ⟨e, mem_sortEntries.mpr he,
        (mem_collectEntry_iff pats e parentPath fr).mpr ⟨anc, hmem, hfile, hanc⟩⟩
  refine ⟨hmain, ?_, ?_⟩
  · intro fr hfr hpath
    rw [hmain] at hfr
    obtain ⟨anc, hmem, hfile, hanc⟩ := hfr
    rw [hpath] at hmem
    have heval : annList sampleProject "" =
        [⟨"out.txt", "build/out.txt", "object", ["build"]⟩,
         ⟨"a.txt", "a.txt", "alpha", []⟩] := by decide
    rw [heval] at hmem
    simp only [List.mem_cons, List.not_mem_nil, or_false, AnnFile.mk.injEq] at hmem
    rcases hmem with ⟨-, -, -, hanc'⟩ | ⟨-, hbad, -, -⟩
    · have hb : matchesGitignore (parseGitignore "build/") "build" true = false := by
        apply hanc
        rw [hanc']
        exact List.mem_singleton_self _
      have : matchesGitignore (parseGitignore "build/") "build" true = true := by decide
      rw [this] at hb
      cases hb
    · exact absurd hbad (by decide)
  · apply (hmain _ _ _ _).mpr
    refine ⟨[], by decide, by decide, ?_⟩
    intro d hd
    cases hd

/-- First entry of a directory level with the given name: the pure
counterpart of resolving a name against a parent directory handle. -/
def lookupEntry (d : List FSEntry) (name : String) : Option FSEntry :=
  d.find? (fun e => e.name == name)

/-- Mutation of one directory level by a create-if-absent request followed
by a write: the entry of the same name is replaced in place, or the new
entry is appended when the name is absent. -/
def setEntry (d : List FSEntry) (e : FSEntry) : List FSEntry :=
  if d.any (fun x => x.name == e.name) then
    d.map (fun x => if x.name == e.name then e else x)
  else d ++ [e]

/-- Removal by name, the model of removeEntry with the recursive option:
the entry of that name disappears together with its whole subtree. -/
def removeName (d : List FSEntry) (name : String) : List FSEntry :=
  d.filter (fun e => e.name != name)

/-- Model of a getFileHandle request with create true followed by
createWritable, write and close: an existing file of that name ends up
holding the written content, a missing entry is created, and an existing
directory of that name fails the request with the level unchanged (the
TypeMismatchError of the platform), the error value carrying the state. -/
def writeFileCreate (d : List FSEntry) (name content : String) :
    Except (List FSEntry) (List FSEntry) :=
  match lookupEntry d name with
  | some (.dir _ _) => .error d
  | _ => .ok (setEntry d (.file name content))

/-- Model of a getDirectoryHandle request with create true: the child list
of the existing directory of that name, a fresh empty child list when the
name is absent, and a failure when a file of that name is in the way. -/
def getDirChildrenCreate (d : List FSEntry) (name : String) :
    Except (List FSEntry) (List FSEntry) :=
  match lookupEntry d name with
  | some (.dir _ ch) => .ok ch
  | some (.file _ _) => .error d
  | none => .ok []

/-- Embedding of FileSystem.copyDirectoryContents (src/unnamed/part_003
lines 244 to 257): each source entry is copied into the target in iteration
order, a file by a create-and-write of its text, a directory by a nested
create-if-absent followed by a recursive copy; an error aborts the walk and
the carried state keeps every mutation already performed. -/
def copyDirectoryContents : List FSEntry → List FSEntry →
    Except (List FSEntry) (List FSEntry)
  | [], tgt => .ok tgt
  | .file n c :: rest, tgt =>
    match writeFileCreate tgt n c with
    | .error t => .error t
    | .ok t => copyDirectoryContents rest t
  | .dir n ch :: rest, tgt =>
    match getDirChildrenCreate tgt n with
    | .error t => .error t
    | .ok nested =>
      match copyDirectoryContents ch nested with
      | .error nested' => .error (setEntry tgt (.dir n nested'))
      | .ok nested' => copyDirectoryContents rest (setEntry tgt (.dir n nested'))

/-- Embedding of FileSystem.renameEntry (src/unnamed/part_003 lines 143 to
165) acting on the parent directory level: a directory is renamed by
creating a directory under the new name and recursively copying all
contents into it, a file by creating a file under the new name and writing
the source text, and only afterwards is the original removed by name. The
flag deleteFails injects a failure of the remove call after a completed
copy: the catch block then reports false and performs no rollback, so the
state keeps both entries. -/
def renameEntry (parent : List FSEntry) (entry : FSEntry) (newName : String)
    (deleteFails : Bool) : Bool × List FSEntry :=
  match entry with
  | .dir _ ch =>
    match getDirChildrenCreate parent newName with
    | .error _ => (false, parent)
    | .ok nested =>
      match copyDirectoryContents ch nested with
      | .error nested' => (false, setEntry parent (.dir newName nested'))
      | .ok nested' =>
        if deleteFails then (false, setEntry parent (.dir newName nested'))
        else (true, removeName (setEntry parent (.dir newName nested')) entry.name)
  | .file _ c =>
    match writeFileCreate parent newName c with
    | .error _ => (false, parent)
    | .ok parent' =>
      if deleteFails then (false, parent')
      else (true, removeName parent' entry.name)

/-- Embedding of FileSystem.createFile (src/unnamed/part_003 lines 108 to
119): a create-if-absent file handle request for the name followed by a
write of the empty string and a close; a directory of that name makes the
request fail, null is returned and the level is unchanged. -/
def createFile (parent : List FSEntry) (fileName : String) :
    Option String × List FSEntry :=
  match lookupEntry parent fileName with
  | some (.dir _ _) => (none, parent)
  | _ => (some fileName, setEntry parent (.file fileName ""))

/-- Pairwise distinctness of the names of one directory level. -/
def namesNodup : List FSEntry → Bool
  | [] => true
  | e :: rest => !(rest.any (fun x => x.name == e.name)) && namesNodup rest

mutual
/-- Well-formedness of one entry: inside every directory of the subtree the
names are pairwise distinct, as they are for a real on-disk tree. -/
def wfEntry : FSEntry → Bool
  | .file _ _ => true
  | .dir _ ch => namesNodup ch && wfChildren ch

/-- Well-formedness of every entry of a list. -/
def wfChildren : List FSEntry → Bool
  | [] => true
  | e :: rest => wfEntry e && wfChildren rest
end

theorem lookupEntry_eq_none_iff {d : List FSEntry} {n : String} :
    lookupEntry d n = none ↔ ∀ e ∈ d, e.name ≠ n := by
  simp [lookupEntry, List.find?_eq_none]

theorem setEntry_of_fresh {d : List FSEntry} {e : FSEntry}
    (h : ∀ x ∈ d, x.name ≠ e.name) : setEntry d e = d ++ [e] := by
  rw [setEntry, if_neg]
  simp only [List.any_eq_true, beq_iff_eq, not_exists, not_and]
  exact h

theorem lookupEntry_append (d1 d2 : List FSEntry) (n : String) :
    lookupEntry (d1 ++ d2) n =
      (lookupEntry d1 n).or (lookupEntry d2 n) := by
  simp [lookupEntry, List.find?_append]

theorem removeName_append (d1 d2 : List FSEntry) (n : String) :
    removeName (d1 ++ d2) n = removeName d1 n ++ removeName d2 n := by
  simp [removeName, List.filter_append]

theorem lookupEntry_removeName_self (d : List FSEntry) (n : String) :
    lookupEntry (removeName d n) n = none := by
  rw [lookupEntry_eq_none_iff]
  intro e he
  rw [removeName] at he
  have := List.of_mem_filter he
  simpa using this

theorem lookupEntry_removeName_of_none {d : List FSEntry} {n m : String}
    (h : lookupEntry d m = none) :
    lookupEntry (removeName d n) m = none := by
  rw [lookupEntry_eq_none_iff] at h ⊢
  intro e he
  exact h e (List.mem_of_mem_filter he)

theorem namesNodup_head {e : FSEntry} {rest : List FSEntry}
    (h : namesNodup (e :: rest) = true) :
    (∀ x ∈ rest, x.name ≠ e.name) ∧ namesNodup rest = true := by
  rw [namesNodup, Bool.and_eq_true] at h
  refine ⟨?_, h.2⟩
  intro x hx
  intro hx'
  have h1 := h.1
  simp only [Bool.not_eq_true', List.any_eq_false] at h1
  exact h1 x hx (beq_iff_eq.mpr hx')

theorem copyDirectoryContents_fresh :
    ∀ (src tgt : List FSEntry),
      (∀ e ∈ src, ∀ t ∈ tgt, e.name ≠ t.name) →
      namesNodup src = true → wfChildren src = true →
      copyDirectoryContents src tgt = .ok (tgt ++ src)
  | [], tgt, _, _, _ => by simp [copyDirectoryContents]
  | .file n c :: rest, tgt, hdisj, hnodup, hwf => by
    rw [copyDirectoryContents]
    have hfr : ∀ x ∈ tgt, x.name ≠ (FSEntry.file n c).name := by
      intro x hx
      exact fun hx' =>
        hdisj (.file n c) (List.mem_cons_self _ _) x hx hx'.symm
    have hlk : lookupEntry tgt n = none := by
      rw [lookupEntry_eq_none_iff]
      intro x hx
      exact hfr x hx
    have hwfc : writeFileCreate tgt n c = .ok (tgt ++ [FSEntry.file n c]) := by
      simp only [writeFileCreate, hlk, setEntry_of_fresh hfr]
    simp only [hwfc]
    obtain ⟨hhead, hrest⟩ := namesNodup_head hnodup
    rw [wfChildren, Bool.and_eq_true] at hwf
    have hdisj' : ∀ e ∈ rest, ∀ t ∈ tgt ++ [FSEntry.file n c], e.name ≠ t.name := by
      intro e he t ht
      rcases List.mem_append.mp ht with h | h
      · exact hdisj e (List.mem_cons_of_mem _ he) t h
      · rw [List.mem_singleton] at h
        subst h
        exact hhead e he
    rw [show tgt ++ FSEntry.file n c :: rest = (tgt ++ [FSEntry.file n c]) ++ rest by simp]
    exact copyDirectoryContents_fresh rest (tgt ++ [FSEntry.file n c]) hdisj' hrest hwf.2
  | .dir n ch :: rest, tgt, hdisj, hnodup, hwf => by
    rw [copyDirectoryContents]
    have hfr : ∀ x ∈ tgt, x.name ≠ (FSEntry.dir n ch).name := by
      intro x hx
      exact fun hx' =>
        hdisj (.dir n ch) (List.mem_cons_self _ _) x hx hx'.symm
    have hlk : lookupEntry tgt n = none := by
      rw [lookupEntry_eq_none_iff]
      intro x hx
      exact hfr x hx
    have hgd : getDirChildrenCreate tgt n = .ok [] := by
      simp only [getDirChildrenCreate, hlk]
    rw [wfChildren, Bool.and_eq_true] at hwf
    have hwfd := hwf.1
    rw [wfEntry, Bool.and_eq_true] at hwfd
    have hcopy := copyDirectoryContents_fresh ch []
      (by intro e _ t ht; cases ht) hwfd.1 hwfd.2
    simp only [hgd, hcopy, List.nil_append, setEntry_of_fresh hfr]
    obtain ⟨hhead, hrest⟩ := namesNodup_head hnodup
    have hdisj' : ∀ e ∈ rest, ∀ t ∈ tgt ++ [FSEntry.dir n ch], e.name ≠ t.name := by
      intro e he t ht
      rcases List.mem_append.mp ht with h | h
      · exact hdisj e (List.mem_cons_of_mem _ he) t h
      · rw [List.mem_singleton] at h
        subst h
        exact hhead e he
    rw [show tgt ++ FSEntry.dir n ch :: rest = (tgt ++ [FSEntry.dir n ch]) ++ rest by simp]
    exact copyDirectoryContents_fresh rest (tgt ++ [FSEntry.dir n ch]) hdisj' hrest hwf.2
termination_by src _ _ _ _ => sizeOf src
decreasing_by
  all_goals simp
  all_goals omega

/-- Renaming of the top-level name of an entry: the deep copy expected under
the new name after a completed copy phase. -/
def withName (e : FSEntry) (newName : String) : FSEntry :=
  match e with
  | .file _ c => .file newName c
  | .dir _ ch => .dir newName ch

theorem withName_name (e : FSEntry) (newName : String) :
    (withName e newName).name = newName := by
  cases e <;> rfl

theorem lookupEntry_singleton_of_eq {e : FSEntry} {n : String} (h : e.name = n) :
    lookupEntry [e] n = some e := by
  simp [lookupEntry, List.find?, h]

/-- C7: renameEntry is copy-then-delete and not atomic. Under a fresh target
name the copy phase first materializes a deep copy of the original under
the new name, appended to the parent level; on an undisturbed run the
original is removed only afterwards and success is reported, while a
failure injected between the completed copy and the delete is reported as
failure with no rollback attempted, leaving both the original entry and the
full copy present on disk. -/
theorem renameEntry_copy_then_delete (parent : List FSEntry) (entry : FSEntry)
    (newName : String)
    (hentry : lookupEntry parent entry.name = some entry)
    (hfresh : lookupEntry parent newName = none)
    (hne : newName ≠ entry.name)
    (hwf : wfEntry entry = true) :
    (renameEntry parent entry newName false =
        (true, removeName (parent ++ [withName entry newName]) entry.name)
      ∧ lookupEntry (renameEntry parent entry newName false).2 newName
          = some (withName entry newName)
      ∧ lookupEntry (renameEntry parent entry newName false).2 entry.name = none)
    ∧ (renameEntry parent entry newName true
          = (false, parent ++ [withName entry newName])
      ∧ lookupEntry (renameEntry parent entry newName true).2 entry.name = some entry
      ∧ lookupEntry (renameEntry parent entry newName true).2 newName
          = some (withName entry newName)) := by
  have hfr : ∀ x ∈ parent, x.name ≠ (withName entry newName).name := by
    intro x hx
    rw [withName_name]
    exact lookupEntry_eq_none_iff.mp hfresh x hx
  have hcopyEq : ∀ b : Bool, renameEntry parent entry newName b =
      (if b then (false, parent ++ [withName entry newName])
       else (true, removeName (parent ++ [withName entry newName]) entry.name)) := by
    intro b
    cases entry with
    | file n c =>
      have hfr' : ∀ x ∈ parent, x.name ≠ (FSEntry.file newName c).name := hfr
      have hwfc : writeFileCreate parent newName c
          = .ok (parent ++ [FSEntry.file newName c]) := by
        simp only [writeFileCreate, hfresh, setEntry_of_fresh hfr']
      rw [renameEntry]
      simp only [hwfc]
      cases b <;> rfl
    | dir n ch =>
      have hfr' : ∀ x ∈ parent, x.name ≠ (FSEntry.dir newName ch).name := hfr
      have hgd : getDirChildrenCreate parent newName = .ok [] := by
        simp only [getDirChildrenCreate, hfresh]
      rw [wfEntry, Bool.and_eq_true] at hwf
      have hcopy := copyDirectoryContents_fresh ch []
        (by intro e _ t ht; cases ht) hwf.1 hwf.2
      rw [renameEntry]
      simp only [hgd, hcopy, List.nil_append, setEntry_of_fresh hfr']
      cases b <;> rfl
  have hF : renameEntry parent entry newName false
      = (true, removeName (parent ++ [withName entry newName]) entry.name) := by
    simpa using hcopyEq false
  have hT : renameEntry parent entry newName true
      = (false, parent ++ [withName entry newName]) := by
    simpa using hcopyEq true
  have hnew : (withName entry newName).name = newName := withName_name entry newName
  refine ⟨⟨hF, ?_, ?_⟩, hT, ?_, ?_⟩
  · rw [hF]
    rw [removeName_append]
    have hkeep : removeName [withName entry newName] entry.name
        = [withName entry newName] := by
      have hb : (newName != entry.name) = true := by simp [hne]
      simp [removeName, List.filter, hnew, hb]
    rw [hkeep, lookupEntry_append,
      lookupEntry_removeName_of_none hfresh,
      lookupEntry_singleton_of_eq hnew]
    rfl
  · rw [hF]
    exact lookupEntry_removeName_self _ _
  · rw [hT]
    rw [lookupEntry_append, hentry]
    rfl
  · rw [hT]
    rw [lookupEntry_append, hfresh, lookupEntry_singleton_of_eq hnew]
    rfl

/-- Concrete directory level for the rename witness: the directory old with
one file inside, next to an unrelated sibling file. -/
def renameParent : List FSEntry :=
  [FSEntry.dir "old" [FSEntry.file "a.txt" "alpha"], FSEntry.file "keep" "kappa"]

/-- Concrete entry renamed in the witness. -/
def renameTarget : FSEntry := FSEntry.dir "old" [FSEntry.file "a.txt" "alpha"]

/-- Witness for C7: renaming the directory old to renamed with the delete
step failing leaves both the original directory and its full copy present
in the parent level. -/
theorem renameEntry_copy_then_delete_witness :
    lookupEntry (renameEntry renameParent renameTarget "renamed" true).2
        renameTarget.name = some renameTarget
    ∧ lookupEntry (renameEntry renameParent renameTarget "renamed" true).2 "renamed"
        = some (withName renameTarget "renamed") :=
  ⟨(renameEntry_copy_then_delete renameParent renameTarget "renamed"
      (by decide) (by decide) (by decide) (by decide)).2.2.1,
   (renameEntry_copy_then_delete renameParent renameTarget "renamed"
      (by decide) (by decide) (by decide) (by decide)).2.2.2⟩

theorem find_replace_aux (nm : String) (e : FSEntry) (he : (e.name == nm) = true) :
    ∀ d : List FSEntry, d.any (fun x => x.name == nm) = true →
      (d.map (fun x => if x.name == nm then e else x)).find? (fun x => x.name == nm)
        = some e := by
  intro d
  induction d with
  | nil => intro h; simp at h
  | cons x rest ih =>
    intro h
    by_cases hx : (x.name == nm) = true
    · rw [List.map_cons, if_pos hx]
      exact List.find?_cons_of_pos _ he
    · rw [List.map_cons, if_neg hx]
      have hx' : (x.name == nm) = false := by
        rwa [Bool.not_eq_true] at hx
      rw [List.find?_cons]
      simp only [hx']
      apply ih
      simp only [List.any_cons, Bool.or_eq_true] at h
      rcases h with h | h
      · exact absurd h hx
      · exact h

theorem lookupEntry_setEntry_self (d : List FSEntry) (e : FSEntry) :
    lookupEntry (setEntry d e) e.name = some e := by
  rw [setEntry]
  by_cases h : d.any (fun x => x.name == e.name) = true
  · rw [if_pos h]
    exact find_replace_aux e.name e (by simp) d h
  · rw [if_neg h]
    rw [lookupEntry_append]
    have hd : lookupEntry d e.name = none := by
      rw [lookupEntry_eq_none_iff]
      intro x hx hc
      exact h (List.any_eq_true.mpr ⟨x, hx, by simp [hc]⟩)
    rw [hd, lookupEntry_singleton_of_eq rfl]
    rfl

/-- C10 (implicit): createFile always writes the empty string through a
create-if-absent handle, so when the parent directory already holds a file
of the given name the call succeeds - a handle is returned instead of a
collision being reported - and the existing content is truncated to the
empty string, destroying the previous content. -/
theorem createFile_truncates_existing (parent : List FSEntry)
    (fileName oldContent : String)
    (h : lookupEntry parent fileName = some (.file fileName oldContent)) :
    (createFile parent fileName).1 = some fileName
    ∧ lookupEntry (createFile parent fileName).2 fileName
        = some (.file fileName "") := by
  constructor
  · simp [createFile, h]
  · have h2 : (createFile parent fileName).2
        = setEntry parent (.file fileName "") := by
      simp [createFile, h]
    rw [h2]
    exact lookupEntry_setEntry_self parent (.file fileName "")

/-- Witness for C10: createFile on a level already holding notes.txt with
content succeeds and leaves notes.txt empty. -/
theorem createFile_truncates_existing_witness :
    (createFile [FSEntry.file "notes.txt" "old text"] "notes.txt").1
        = some "notes.txt"
    ∧ lookupEntry (createFile [FSEntry.file "notes.txt" "old text"] "notes.txt").2
        "notes.txt" = some (.file "notes.txt" "") :=
  createFile_truncates_existing [FSEntry.file "notes.txt" "old text"] "notes.txt"
    "old text" (by decide)

/-- Session record persisted by FileSystem.saveSession (src/unnamed/part_003
lines 9 to 16): root folder name, active file path and timestamp; a missing
value is stored as null, modeled by Option. -/
structure Session where
  folderName : Option String
  currentFilePath : Option String
  timestamp : Nat
deriving DecidableEq

/-- Model of one open tab of CodeEditor, the records pushed in openFile
(src/editor/editor.js lines 363 to 372): the id derived from the path, the
file name, the path, the edit buffer text (the doc of the stored editor
state), the language label and the dirty flag. The field savedContent is a
specification ghost recording the content last successfully written through
the bound handle, initialized with the file content read at open time. -/
structure Tab where
  id : String
  name : String
  path : String
  content : String
  language : String
  dirty : Bool
  savedContent : String
deriving DecidableEq

/-- Model of the CodeEditor state: the open tabs in order, the active tab
id, the document text of the live editing surface, the editor-level dirty
flag, the status-bar file name and language label, the persisted
editorSession record and the root folder name. -/
structure EditorSt where
  openTabs : List Tab
  activeTabId : Option String
  viewContent : String
  dirty : Bool
  currentFileName : String
  currentLanguage : String
  session : Option Session
  rootFolder : Option String
deriving DecidableEq

/-- Initial editor state as set up by the CodeEditor constructor
(src/editor/editor.js lines 80 to 105). -/
def initSt : EditorSt :=
  { openTabs := [], activeTabId := none, viewContent := "", dirty := false,
    currentFileName := "No file open", currentLanguage := "Plain Text",
    session := none, rootFolder := none }

/-- Embedding of CodeEditor.getLanguageFromFileName (src/editor/editor.js
lines 164 to 183): the extension is the lowercased last dot-component when
the name contains a dot, and unknown extensions default to Plain Text. -/
def languageFromFileName (fileName : String) : String :=
  let ext : String :=
    if fileName.toList.contains '.' then
      (((splitChar '.' fileName.toList).getLastD []).map Char.toLower).asString
    else ""
  if ext = "js" then "JavaScript"
  else if ext = "jsx" then "JavaScript (JSX)"
  else if ext = "ts" then "TypeScript"
  else if ext = "tsx" then "TypeScript (TSX)"
  else if ext = "html" then "HTML"
  else if ext = "htm" then "HTML"
  else if ext = "css" then "CSS"
  else if ext = "scss" then "SCSS"
  else if ext = "less" then "LESS"
  else if ext = "py" then "Python"
  else if ext = "json" then "JSON"
  else if ext = "md" then "Markdown"
  else if ext = "mdx" then "Markdown (MDX)"
  else if ext = "sql" then "SQL"
  else "Plain Text"

/-- Embedding of CodeEditor.getActiveTab (src/editor/editor.js lines 459 to
461): the first open tab whose id equals the active tab id, when any. -/
def EditorSt.activeTab (st : EditorSt) : Option Tab :=
  match st.activeTabId with
  | none => none
  | some tabId => st.openTabs.find? (fun t => t.id == tabId)

/-- Embedding of FileSystem.saveSession (src/unnamed/part_003 lines 9 to
16): stores the root folder name, the given path (null when empty) and the
current time into the persisted editorSession record. -/
def saveSessionOp (st : EditorSt) (currentFilePath : String) (now : Nat) :
    EditorSt :=
  { st with session := some ⟨st.rootFolder,
      if currentFilePath = "" then none else some currentFilePath, now⟩ }

/-- Embedding of CodeEditor.setActiveTab (src/editor/editor.js lines 463 to
477): an unknown id is a no-op; otherwise the tab becomes active, the
status fields mirror it, the editor dirty flag mirrors the tab dirty flag
and the live editing surface is set to the stored tab state. No session
record is written by this method. -/
def setActiveTab (st : EditorSt) (tabId : String) : EditorSt :=
  match st.openTabs.find? (fun t => t.id == tabId) with
  | none => st
  | some tab =>
    { st with
      activeTabId := some tab.id,
      currentFileName := tab.name,
      currentLanguage := tab.language,
      dirty := tab.dirty,
      viewContent := tab.content }

/-- Tab id computed in CodeEditor.openFile: the path when non-empty,
otherwise the handle name (the JavaScript or-default on line 349). -/
def openTabId (handleName path : String) : String :=
  if path = "" then handleName else path

/-- Embedding of CodeEditor.openFile (src/editor/editor.js lines 347 to
379) for a handle of the given name whose on-disk content is fileContent,
and a path argument: when a tab with the derived id exists it is activated
and the session saved with its path, with no other change; otherwise a
fresh clean tab holding the file content is appended, activated, and the
session saved with the new tab path. The recent-files store is outside
this model. -/
def openFile (st : EditorSt) (handleName fileContent path : String)
    (now : Nat) : EditorSt :=
  match st.openTabs.find? (fun t => t.id == openTabId handleName path) with
  | some existing =>
    saveSessionOp (setActiveTab st existing.id)
      (if existing.path = "" then existing.name else existing.path) now
  | none =>
    saveSessionOp
      (setActiveTab
        { st with openTabs := st.openTabs ++
            [{ id := openTabId handleName path,
               name := handleName,
               path := openTabId handleName path,
               content := fileContent,
               language := languageFromFileName handleName,
               dirty := false,
               savedContent := fileContent }] }
        (openTabId handleName path))
      (openTabId handleName path) now

/-- Embedding of the updateListener dispatch with docChanged true
(src/editor/editor.js lines 256 to 272): the live surface holds the new
document, the active tab stores the new state and is marked dirty, and the
editor-level dirty flag is set; no content comparison with the saved text
happens anywhere. -/
def editBuffer (st : EditorSt) (newContent : String) : EditorSt :=
  { st with
    openTabs := st.openTabs.map (fun t =>
      if st.activeTabId = some t.id then
        { t with content := newContent, dirty := true }
      else t),
    viewContent := newContent,
    dirty := true }

/-- Embedding of CodeEditor.saveCurrentFile (src/editor/editor.js lines 381
to 394): with no active tab the call returns without writing; otherwise the
current view document is written verbatim through the bound handle of the
active tab. The flag writeOk models the createWritable-write-close chain
succeeding; on failure the rejection propagates to the caller - the
function has no catch - before any state mutation, modeled by the error
branch carrying the unchanged state. On success the active tab is marked
clean, its stored state and last written content become the view document,
and the editor dirty flag clears. -/
def applySave (view : String) (tabId : String) (t : Tab) : Tab :=
  if t.id == tabId then
    { t with dirty := false, content := view, savedContent := view }
  else t

/-- Wrapper of the save path around applySave, see the comment above. -/
def saveCurrentFile (st : EditorSt) (writeOk : Bool) :
    Except EditorSt EditorSt :=
  match st.activeTab with
  | none => .ok st
  | some tab =>
    if writeOk then
      .ok { st with
        openTabs := st.openTabs.map (applySave st.viewContent tab.id),
        dirty := false }
    else .error st

/-- Embedding of CodeEditor.closeTab (src/editor/editor.js lines 479 to
507): an unknown id is a no-op; the tab at the found index is removed;
when no tab remains the editor reverts to the unbound empty state and the
session record is cleared; when the closed tab was active, the tab of the
remaining list at the index one to the left clamped to zero is activated
and the session saved with its path; otherwise only the removal happens. -/
def closeTab (st : EditorSt) (tabId : String) (now : Nat) : EditorSt :=
  match st.openTabs.findIdx? (fun t => t.id == tabId) with
  | none => st
  | some idx =>
    if (st.openTabs.eraseIdx idx).isEmpty then
      { st with
        openTabs := st.openTabs.eraseIdx idx,
        activeTabId := none,
        currentFileName := "No file open",
        currentLanguage := "Plain Text",
        dirty := false,
        viewContent := "",
        session := none }
    else if st.activeTabId = some tabId then
      match (st.openTabs.eraseIdx idx)[idx - 1]? with
      | some next =>
        saveSessionOp
          (setActiveTab { st with openTabs := st.openTabs.eraseIdx idx } next.id)
          next.path now
      | none => { st with openTabs := st.openTabs.eraseIdx idx }
    else
      { st with openTabs := st.openTabs.eraseIdx idx }

/-- Projection of a save call result: the editor state afterwards, whether
the returned promise resolved or rejected. -/
def saveResult : Except EditorSt EditorSt → EditorSt
  | .ok st => st
  | .error st => st

/-- One user-driven transition of the editor: opening a file, a
document-changing edit of the live buffer, a save attempt succeeding or
failing, closing a tab, or activating a tab from the tab bar. -/
inductive Step : EditorSt → EditorSt → Prop where
  | openF (st : EditorSt) (handleName fileContent path : String) (now : Nat) :
      Step st (openFile st handleName fileContent path now)
  | edit (st : EditorSt) (newContent : String) (h : newContent ≠ st.viewContent) :
      Step st (editBuffer st newContent)
  | save (st : EditorSt) (writeOk : Bool) :
      Step st (saveResult (saveCurrentFile st writeOk))
  | close (st : EditorSt) (tabId : String) (now : Nat) :
      Step st (closeTab st tabId now)
  | activate (st : EditorSt) (tabId : String) :
      Step st (setActiveTab st tabId)

/-- Reachability of an editor state from the initial state through
user-driven steps. -/
def Reachable (st : EditorSt) : Prop :=
  Relation.ReflTransGen Step initSt st

/-- Invariant of the editor state maintained by every user-driven step: tab
ids are pairwise distinct, every tab id equals its path, the active tab id
always resolves to a tab whose stored content the live surface mirrors, and
every tab whose dirty flag is clear holds exactly its last written
content. -/
def EdInv (st : EditorSt) : Prop :=
  (st.openTabs.map Tab.id).Nodup
  ∧ (∀ t ∈ st.openTabs, t.id = t.path)
  ∧ (∀ aid, st.activeTabId = some aid →
      ∃ t, st.openTabs.find? (fun x => x.id == aid) = some t
        ∧ st.viewContent = t.content)
  ∧ (∀ t ∈ st.openTabs, t.dirty = false → t.content = t.savedContent)

theorem find?_map_pred {α β : Type} (f : α → β) (p : β → Bool) (q : α → Bool)
    (hpq : ∀ x, p (f x) = q x) :
    ∀ l : List α, (l.map f).find? p = (l.find? q).map f := by
  intro l
  induction l with
  | nil => rfl
  | cons x rest ih =>
    rw [List.map_cons, List.find?_cons, List.find?_cons, hpq]
    cases hq : q x
    · simpa using ih
    · rfl

theorem findIdx?_found {α : Type} {l : List α} {p : α → Bool} {i : ℕ}
    (h : l.findIdx? p = some i) :
    ∃ hh : i < l.length, p (l.get ⟨i, hh⟩) = true := by
  rw [List.findIdx?_eq_some_iff_findIdx_eq] at h
  obtain ⟨h1, h2⟩ := h
  refine ⟨h1, ?_⟩
  have h3 : l.findIdx p < l.length := by rw [h2]; exact h1
  have h4 := @List.findIdx_getElem _ p l h3
  simp only [List.get_eq_getElem]
  simpa [h2] using h4

theorem inv_saveSessionOp {st : EditorSt} (h : EdInv st) (p : String)
    (now : Nat) : EdInv (saveSessionOp st p now) := h

theorem inv_setActiveTab {st : EditorSt} (h : EdInv st) (tabId : String) :
    EdInv (setActiveTab st tabId) := by
  obtain ⟨h1, h2, h3, h4⟩ := h
  rw [setActiveTab]
  cases hf : st.openTabs.find? (fun t => t.id == tabId) with
  | none => exact ⟨h1, h2, h3, h4⟩
  | some tab =>
    refine ⟨h1, h2, ?_, h4⟩
    intro aid haid
    have haid' : tab.id = aid := by
      have h5 : some tab.id = some aid := haid
      injection h5
    have hid : tab.id = tabId := by
      have h5 := List.find?_some hf
      simpa using h5
    refine ⟨tab, ?_, rfl⟩
    rw [← haid', hid]
    exact hf

theorem inv_openFile {st : EditorSt} (h : EdInv st)
    (handleName fileContent path : String) (now : Nat) :
    EdInv (openFile st handleName fileContent path now) := by
  rw [openFile]
  cases hf : st.openTabs.find? (fun t => t.id == openTabId handleName path) with
  | some existing => exact inv_saveSessionOp (inv_setActiveTab h existing.id) _ _
  | none =>
    apply inv_saveSessionOp
    apply inv_setActiveTab
    obtain ⟨h1, h2, h3, h4⟩ := h
    have hnotin : ∀ t ∈ st.openTabs, ¬ t.id = openTabId handleName path := by
      intro t ht
      have h5 := List.find?_eq_none.mp hf t ht
      simpa using h5
    refine ⟨?_, ?_, ?_, ?_⟩
    · show ((st.openTabs ++ _).map Tab.id).Nodup
      rw [List.map_append, List.nodup_append]
      refine ⟨h1, List.nodup_singleton _, ?_⟩
      intro a ha hb
      rw [List.map_singleton, List.mem_singleton] at hb
      rw [List.mem_map] at ha
      obtain ⟨t, ht, rfl⟩ := ha
      exact hnotin t ht hb
    · intro t ht
      rcases List.mem_append.mp ht with h5 | h5
      · exact h2 t h5
      · rw [List.mem_singleton] at h5
        subst h5
        rfl
    · intro aid haid
      obtain ⟨t0, ht0, hview⟩ := h3 aid haid
      refine ⟨t0, ?_, hview⟩
      show (st.openTabs ++ _).find? _ = some t0
      rw [List.find?_append, ht0]
      rfl
    · intro t ht hd
      rcases List.mem_append.mp ht with h5 | h5
      · exact h4 t h5 hd
      · rw [List.mem_singleton] at h5
        subst h5
        rfl

theorem inv_editBuffer {st : EditorSt} (h : EdInv st) (newContent : String) :
    EdInv (editBuffer st newContent) := by
  obtain ⟨h1, h2, h3, h4⟩ := h
  have hid : ∀ t : Tab,
      (if st.activeTabId = some t.id
        then { t with content := newContent, dirty := true } else t).id = t.id := by
    intro t
    by_cases hc : st.activeTabId = some t.id <;> simp [hc]
  have hmapid : ((st.openTabs.map (fun t =>
      if st.activeTabId = some t.id
        then { t with content := newContent, dirty := true } else t)).map Tab.id)
      = st.openTabs.map Tab.id := by
    rw [List.map_map]
    apply List.map_congr_left
    intro t _
    exact hid t
  refine ⟨?_, ?_, ?_, ?_⟩
  · show ((st.openTabs.map _).map Tab.id).Nodup
    rw [hmapid]
    exact h1
  · intro t ht
    rw [show (editBuffer st newContent).openTabs = st.openTabs.map (fun t =>
        if st.activeTabId = some t.id
          then { t with content := newContent, dirty := true } else t) from rfl] at ht
    rw [List.mem_map] at ht
    obtain ⟨t0, ht0, rfl⟩ := ht
    by_cases hc : st.activeTabId = some t0.id <;> simp [hc]
    · exact h2 t0 ht0
    · exact h2 t0 ht0
  · intro aid haid
    have haid' : st.activeTabId = some aid := haid
    obtain ⟨t0, ht0, -⟩ := h3 aid haid'
    have hq : ∀ x : Tab,
        ((if st.activeTabId = some x.id
            then { x with content := newContent, dirty := true } else x).id == aid)
          = (x.id == aid) := by
      intro x
      by_cases hc : st.activeTabId = some x.id <;> simp [hc]
    refine ⟨{ t0 with content := newContent, dirty := true }, ?_, ?_⟩
    · show (st.openTabs.map _).find? _ = _
      rw [find?_map_pred _ _ (fun x => x.id == aid) hq st.openTabs, ht0]
      have ht0id : t0.id = aid := by
        have h5 := List.find?_some ht0
        simpa using h5
      have hc : st.activeTabId = some t0.id := by rw [ht0id]; exact haid'
      simp [hc]
    · rfl
  · intro t ht hd
    rw [show (editBuffer st newContent).openTabs = st.openTabs.map (fun t =>
        if st.activeTabId = some t.id
          then { t with content := newContent, dirty := true } else t) from rfl] at ht
    rw [List.mem_map] at ht
    obtain ⟨t0, ht0, rfl⟩ := ht
    by_cases hc : st.activeTabId = some t0.id
    · rw [if_pos hc] at hd ⊢
      cases hd
    · rw [if_neg hc] at hd ⊢
      exact h4 t0 ht0 hd

theorem applySave_id (view tabId : String) (t : Tab) :
    (applySave view tabId t).id = t.id := by
  rw [applySave]
  by_cases hc : (t.id == tabId) = true <;> simp [hc]

theorem inv_save {st : EditorSt} (h : EdInv st) (writeOk : Bool) :
    EdInv (saveResult (saveCurrentFile st writeOk)) := by
  obtain ⟨h1, h2, h3, h4⟩ := h
  rw [saveCurrentFile]
  cases hact : st.activeTab with
  | none => exact ⟨h1, h2, h3, h4⟩
  | some tab =>
    cases writeOk with
    | false => exact ⟨h1, h2, h3, h4⟩
    | true =>
      refine ⟨?_, ?_, ?_, ?_⟩
      · show ((st.openTabs.map (applySave st.viewContent tab.id)).map Tab.id).Nodup
        rw [List.map_map]
        have hmapid : List.map (Tab.id ∘ applySave st.viewContent tab.id) st.openTabs
            = List.map Tab.id st.openTabs :=
          List.map_congr_left (fun t _ => applySave_id st.viewContent tab.id t)
        rw [hmapid]
        exact h1
      · intro t ht
        have ht' : t ∈ st.openTabs.map (applySave st.viewContent tab.id) := ht
        rw [List.mem_map] at ht'
        obtain ⟨t0, ht0, rfl⟩ := ht'
        rw [applySave]
        by_cases hc : (t0.id == tab.id) = true
        · rw [if_pos hc]
          have h5 := h2 t0 ht0
          simpa using h5
        · rw [if_neg hc]
          exact h2 t0 ht0
      · intro aid haid
        have haid' : st.activeTabId = some aid := haid
        obtain ⟨t0, ht0, hview⟩ := h3 aid haid'
        simp only [EditorSt.activeTab, haid'] at hact
        have htt : t0 = tab := by
          rw [hact] at ht0
          injection ht0 with h6
          exact h6.symm
        subst htt
        have hq : ∀ x : Tab,
            ((applySave st.viewContent t0.id x).id == aid) = (x.id == aid) := by
          intro x
          rw [show (applySave st.viewContent t0.id x).id = x.id from
            applySave_id _ _ x]
        refine ⟨applySave st.viewContent t0.id t0, ?_, ?_⟩
        · show (st.openTabs.map (applySave st.viewContent t0.id)).find?
              (fun x => x.id == aid) = _
          rw [find?_map_pred _ _ (fun x => x.id == aid) hq st.openTabs, hact]
          rfl
        · show st.viewContent = (applySave st.viewContent t0.id t0).content
          rw [applySave]
          simp
      · intro t ht hd
        have ht' : t ∈ st.openTabs.map (applySave st.viewContent tab.id) := ht
        rw [List.mem_map] at ht'
        obtain ⟨t0, ht0, rfl⟩ := ht'
        rw [applySave] at hd ⊢
        by_cases hc : (t0.id == tab.id) = true
        · rw [if_pos hc]
        · rw [if_neg hc] at hd ⊢
          exact h4 t0 ht0 hd

theorem inv_setActiveTab_found {st : EditorSt}
    (h1 : (st.openTabs.map Tab.id).Nodup)
    (h2 : ∀ t ∈ st.openTabs, t.id = t.path)
    (h4 : ∀ t ∈ st.openTabs, t.dirty = false → t.content = t.savedContent)
    {tabId : String} {tab : Tab}
    (hf : st.openTabs.find? (fun t => t.id == tabId) = some tab) :
    EdInv (setActiveTab st tabId) := by
  rw [setActiveTab, hf]
  refine ⟨h1, h2, ?_, h4⟩
  intro aid haid
  have haid' : tab.id = aid := by
    have h5 : some tab.id = some aid := haid
    injection h5
  have hid : tab.id = tabId := by
    have h5 := List.find?_some hf
    simpa using h5
  refine ⟨tab, ?_, rfl⟩
  rw [← haid', hid]
  exact hf

theorem inv_closeTab {st : EditorSt} (h : EdInv st) (tabId : String)
    (now : Nat) : EdInv (closeTab st tabId now) := by
  obtain ⟨h1, h2, h3, h4⟩ := h
  rw [closeTab]
  cases hf : st.openTabs.findIdx? (fun t => t.id == tabId) with
  | none => exact ⟨h1, h2, h3, h4⟩
  | some idx =>
    have hsub : List.Sublist (st.openTabs.eraseIdx idx) st.openTabs :=
      List.eraseIdx_sublist _ _
    have h1' : ((st.openTabs.eraseIdx idx).map Tab.id).Nodup :=
      List.Nodup.sublist (List.Sublist.map Tab.id hsub) h1
    have h2' : ∀ t ∈ st.openTabs.eraseIdx idx, t.id = t.path :=
      fun t ht => h2 t (hsub.subset ht)
    have h4' : ∀ t ∈ st.openTabs.eraseIdx idx,
        t.dirty = false → t.content = t.savedContent :=
      fun t ht => h4 t (hsub.subset ht)
    show EdInv (if (st.openTabs.eraseIdx idx).isEmpty = true then _ else _)
    by_cases hemp : (st.openTabs.eraseIdx idx).isEmpty = true
    · rw [if_pos hemp]
      refine ⟨h1', h2', ?_, h4'⟩
      intro aid haid
      exact Option.noConfusion haid
    · rw [if_neg hemp]
      by_cases hact : st.activeTabId = some tabId
      · rw [if_pos hact]
        cases hnext : (st.openTabs.eraseIdx idx)[idx - 1]? with
        | none =>
          exfalso
          obtain ⟨hlt, -⟩ := findIdx?_found hf
          have hlen : (st.openTabs.eraseIdx idx).length
              = st.openTabs.length - 1 := by
            rw [List.length_eraseIdx]
            simp [hlt]
          have hne : st.openTabs.eraseIdx idx ≠ [] := by
            intro he
            rw [he] at hemp
            exact hemp rfl
          have hlen0 : (st.openTabs.eraseIdx idx).length ≠ 0 := by
            intro h0
            exact hne (List.length_eq_zero.mp h0)
          have hnone := List.getElem?_eq_none_iff.mp hnext
          omega
        | some next =>
          show EdInv (saveSessionOp (setActiveTab _ next.id) next.path now)
          apply inv_saveSessionOp
          have hmem : next ∈ st.openTabs.eraseIdx idx := by
            obtain ⟨hl, hget⟩ := List.getElem?_eq_some.mp hnext
            exact hget ▸ List.getElem_mem hl
          have hfind : (((st.openTabs.eraseIdx idx)).find?
              (fun t => t.id == next.id)).isSome = true := by
            rw [List.find?_isSome]
            exact ⟨next, hmem, by simp⟩
          obtain ⟨tab', htab'⟩ := Option.isSome_iff_exists.mp hfind
          exact inv_setActiveTab_found h1' h2' h4' htab'
      · rw [if_neg hact]
        refine ⟨h1', h2', ?_, h4'⟩
        intro aid haid
        have haid' : st.activeTabId = some aid := haid
        obtain ⟨t0, ht0, hview⟩ := h3 aid haid'
        have haidne : aid ≠ tabId := by
          intro he
          rw [he] at haid'
          exact hact haid'
        obtain ⟨hlt, hp⟩ := findIdx?_found hf
        have hpid : (st.openTabs.get ⟨idx, hlt⟩).id = tabId := by
          simpa using hp
        have ht0mem := List.mem_of_find?_eq_some ht0
        have ht0id : t0.id = aid := by
          simpa using List.find?_some ht0
        have ht0mem' : t0 ∈ st.openTabs.eraseIdx idx := by
          rw [List.mem_eraseIdx_iff_getElem]
          obtain ⟨i, hilt, hgi⟩ := List.getElem_of_mem ht0mem
          refine ⟨i, hilt, ?_, hgi⟩
          intro hie
          subst hie
          apply haidne
          rw [← ht0id, ← hgi]
          simpa using hpid
        have hfind : ((st.openTabs.eraseIdx idx).find?
            (fun x => x.id == aid)).isSome = true := by
          rw [List.find?_isSome]
          exact ⟨t0, ht0mem', by simp [ht0id]⟩
        obtain ⟨t'', ht''⟩ := Option.isSome_iff_exists.mp hfind
        have ht''mem := List.mem_of_find?_eq_some ht''
        have ht''id : t''.id = aid := by
          simpa using List.find?_some ht''
        have hte : t'' = t0 := by
          apply List.inj_on_of_nodup_map h1 (hsub.subset ht''mem) ht0mem
          rw [ht''id, ht0id]
        refine ⟨t'', ht'', ?_⟩
        rw [hte]
        exact hview

theorem inv_step {st st' : EditorSt} (h : EdInv st) (hs : Step st st') :
    EdInv st' := by
  cases hs with
  | openF handleName fileContent path now =>
    exact inv_openFile h handleName fileContent path now
  | edit newContent _ => exact inv_editBuffer h newContent
  | save writeOk => exact inv_save h writeOk
  | close tabId now => exact inv_closeTab h tabId now
  | activate tabId => exact inv_setActiveTab h tabId

theorem reachable_inv {st : EditorSt} (hst : Reachable st) : EdInv st := by
  induction hst with
  | refl =>
    refine ⟨List.nodup_nil, ?_, ?_, ?_⟩
    · intro t ht
      cases ht
    · intro aid haid
      exact Option.noConfusion haid
    · intro t ht
      cases ht
  | tail hsteps hstep ih => exact inv_step ih hstep

theorem setActiveTab_openTabs (st : EditorSt) (tabId : String) :
    (setActiveTab st tabId).openTabs = st.openTabs := by
  rw [setActiveTab]
  cases st.openTabs.find? (fun t => t.id == tabId) <;> rfl

theorem setActiveTab_session (st : EditorSt) (tabId : String) :
    (setActiveTab st tabId).session = st.session := by
  rw [setActiveTab]
  cases st.openTabs.find? (fun t => t.id == tabId) <;> rfl

theorem setActiveTab_rootFolder (st : EditorSt) (tabId : String) :
    (setActiveTab st tabId).rootFolder = st.rootFolder := by
  rw [setActiveTab]
  cases st.openTabs.find? (fun t => t.id == tabId) <;> rfl

theorem setActiveTab_activeTabId_found {st : EditorSt} {tabId : String}
    {tab : Tab} (hf : st.openTabs.find? (fun t => t.id == tabId) = some tab) :
    (setActiveTab st tabId).activeTabId = some tab.id := by
  rw [setActiveTab, hf]

theorem saveSessionOp_session (st : EditorSt) (p : String) (now : Nat) :
    (saveSessionOp st p now).session
      = some ⟨st.rootFolder, if p = "" then none else some p, now⟩ := rfl

/-- Concrete run shared by the witnesses: open a.txt holding x at the
initial state. -/
def run1 : EditorSt := openFile initSt "a.txt" "x" "a.txt" 0

/-- Concrete run shared by the witnesses: additionally open b.txt. -/
def run2 : EditorSt := openFile run1 "b.txt" "B" "b.txt" 1

theorem run1_reachable : Reachable run1 :=
  Relation.ReflTransGen.tail Relation.ReflTransGen.refl
    (Step.openF initSt "a.txt" "x" "a.txt" 0)

theorem run2_reachable : Reachable run2 :=
  Relation.ReflTransGen.tail run1_reachable
    (Step.openF run1 "b.txt" "B" "b.txt" 1)

/-- C1: tab de-duplication. At every reachable state the open tab paths are
pairwise distinct - at most one open tab per path - and a call of openFile
whose derived id already names an open tab activates that tab, creates no
new tab and leaves the whole tab list unchanged, every dirty flag and edit
buffer included. -/
theorem openFile_dedup (st : EditorSt) (hst : Reachable st) :
    (st.openTabs.map Tab.path).Nodup
    ∧ ∀ handleName fileContent path now t,
        st.openTabs.find? (fun x => x.id == openTabId handleName path) = some t →
        (openFile st handleName fileContent path now).openTabs = st.openTabs
        ∧ (openFile st handleName fileContent path now).activeTabId = some t.id := by
  obtain ⟨h1, h2, h3, h4⟩ := reachable_inv hst
  constructor
  · have hmp : st.openTabs.map Tab.path = st.openTabs.map Tab.id :=
      List.map_congr_left (fun t ht => (h2 t ht).symm)
    rw [hmp]
    exact h1
  · intro handleName fileContent path now t hfind
    have hmem := List.mem_of_find?_eq_some hfind
    have hfound : ∃ t'', st.openTabs.find? (fun x => x.id == t.id) = some t'' := by
      apply Option.isSome_iff_exists.mp
      rw [List.find?_isSome]
      exact ⟨t, hmem, by simp⟩
    obtain ⟨t'', ht''⟩ := hfound
    have ht''id : t''.id = t.id := by
      simpa using List.find?_some ht''
    constructor
    · show (openFile st handleName fileContent path now).openTabs = st.openTabs
      simp only [openFile, hfind]
      show (setActiveTab st t.id).openTabs = st.openTabs
      exact setActiveTab_openTabs st t.id
    · show (openFile st handleName fileContent path now).activeTabId = some t.id
      simp only [openFile, hfind]
      show (setActiveTab st t.id).activeTabId = some t.id
      rw [setActiveTab_activeTabId_found ht'', ht''id]

/-- Witness for C1: on a reachable state with a.txt and b.txt open, opening
a.txt again leaves the tab list unchanged. -/
theorem openFile_dedup_witness :
    (openFile run2 "a.txt" "x" "a.txt" 9).openTabs = run2.openTabs :=
  ((openFile_dedup run2 run2_reachable).2 "a.txt" "x" "a.txt" 9
    ⟨"a.txt", "a.txt", "a.txt", "x", "Plain Text", false, "x"⟩ (by decide)).1

/-- Concrete run for the dirty-flag counterexample: open a.txt holding x,
edit the buffer to y, edit it back to x. -/
def run3 : EditorSt := editBuffer (editBuffer run1 "y") "x"

theorem run3_reachable : Reachable run3 :=
  Relation.ReflTransGen.tail
    (Relation.ReflTransGen.tail run1_reachable
      (Step.edit run1 "y" (by decide)))
    (Step.edit (editBuffer run1 "y") "x" (by decide))

/-- Test of one tab being dirty while holding exactly its last written
content. -/
def dirtyYetSaved (t : Tab) : Bool := t.dirty && (t.content == t.savedContent)

/-- Counterexample to C2: a reachable state - open a.txt holding x, edit to
y, edit back to x - whose single tab is dirty although its buffer equals
the last successfully written content, so the dirty flag is not the
content-comparison predicate of the claim and undoing an edit back to the
saved text does not clear it. -/
theorem dirty_despite_saved_content :
    Reachable run3 ∧ run3.openTabs.map dirtyYetSaved = [true] :=
  ⟨run3_reachable, by decide⟩

/-- C2 amended: the dirty flag tracks edits, not content - it is set by
every document-changing update and cleared only by a successful save or at
open, so at every reachable state a tab whose dirty flag is clear holds
exactly its last successfully written content, while a dirty tab may also
hold the saved content when edits cancelled out, as the counterexample
shows. -/
theorem clean_tab_matches_saved (st : EditorSt) (hst : Reachable st) :
    ∀ t ∈ st.openTabs, t.dirty = false → t.content = t.savedContent :=
  (reachable_inv hst).2.2.2

/-- Witness for the amended C2 at the concrete run with a.txt freshly
open. -/
theorem clean_tab_matches_saved_witness :
    (⟨"a.txt", "a.txt", "a.txt", "x", "Plain Text", false, "x"⟩ : Tab).content
      = (⟨"a.txt", "a.txt", "a.txt", "x", "Plain Text", false, "x"⟩ : Tab).savedContent :=
  clean_tab_matches_saved run1 run1_reachable
    ⟨"a.txt", "a.txt", "a.txt", "x", "Plain Text", false, "x"⟩
    (by decide) (by decide)

/-- C3: save error atomicity. At any reachable state with an active tab, a
successful save returns ok with the active tab buffer - equal to the view
document by the reachable-state invariant - written verbatim as the new
last written content of that tab, whose dirty flag is cleared; a failing
write returns the rejection to the caller with the editor state completely
unchanged, so the dirty flag is never falsely cleared and the failure is
not swallowed. -/
theorem save_error_contract (st : EditorSt) (hst : Reachable st) (tab : Tab)
    (hact : st.activeTab = some tab) :
    (∃ st', saveCurrentFile st true = .ok st'
      ∧ st'.openTabs = st.openTabs.map (applySave tab.content tab.id)
      ∧ ∃ t', st'.activeTab = some t'
          ∧ t'.id = tab.id
          ∧ t'.dirty = false
          ∧ t'.savedContent = tab.content
          ∧ t'.content = tab.content)
    ∧ saveCurrentFile st false = .error st := by
  obtain ⟨h1, h2, h3, h4⟩ := reachable_inv hst
  cases haid : st.activeTabId with
  | none =>
    exfalso
    simp only [EditorSt.activeTab, haid] at hact
    exact Option.noConfusion hact
  | some aid =>
    have hfind : st.openTabs.find? (fun t => t.id == aid) = some tab := by
      simpa only [EditorSt.activeTab, haid] using hact
    obtain ⟨t0, ht0, hview⟩ := h3 aid haid
    have ht0tab : t0 = tab := by
      rw [hfind] at ht0
      injection ht0 with h5
      exact h5.symm
    rw [ht0tab] at hview
    have hok : saveCurrentFile st true = .ok { st with
        openTabs := st.openTabs.map (applySave st.viewContent tab.id),
        dirty := false } := by
      simp [saveCurrentFile, hact]
    have herr : saveCurrentFile st false = .error st := by
      simp [saveCurrentFile, hact]
    refine ⟨⟨_, hok, ?_, ?_⟩, herr⟩
    · show st.openTabs.map (applySave st.viewContent tab.id)
        = st.openTabs.map (applySave tab.content tab.id)
      rw [hview]
    · have hq : ∀ x : Tab,
          ((applySave st.viewContent tab.id x).id == aid) = (x.id == aid) := by
        intro x
        rw [show (applySave st.viewContent tab.id x).id = x.id from
          applySave_id _ _ x]
      refine ⟨applySave st.viewContent tab.id tab, ?_, ?_, ?_, ?_, ?_⟩
      · simp only [EditorSt.activeTab, haid]
        rw [find?_map_pred _ _ (fun x => x.id == aid) hq st.openTabs, hfind]
        rfl
      · exact applySave_id _ _ tab
      · rw [applySave]
        simp
      · rw [applySave]
        simp [hview]
      · rw [applySave]
        simp [hview]

/-- Witness for C3: on the reachable state with a.txt open, a failing save
returns the error carrying the unchanged state. -/
theorem save_error_contract_witness :
    saveCurrentFile run1 false = .error run1 :=
  (save_error_contract run1 run1_reachable
    ⟨"a.txt", "a.txt", "a.txt", "x", "Plain Text", false, "x"⟩ (by decide)).2

/-- C6: close-tab behaviour. closeTab removes the tab at the index found
for the given id; when the closed tab was active and tabs remain, the
newly active tab is the remaining tab at the index one to the left of the
closed index - the immediate left neighbor when the closed tab was not
leftmost, the new first tab otherwise - and the session record is saved
with its path; when the closed tab was the last one the editor reverts to
the unbound empty state with no active tab, empty buffer and a clear dirty
flag, and the persisted session record is cleared; closing an inactive tab
only removes it. -/
theorem closeTab_contract (st : EditorSt) (tabId : String) (now : Nat)
    (idx : ℕ)
    (hidx : st.openTabs.findIdx? (fun t => t.id == tabId) = some idx) :
    (st.openTabs.eraseIdx idx ≠ [] → st.activeTabId = some tabId →
      ∃ next, (st.openTabs.eraseIdx idx)[idx - 1]? = some next
        ∧ (closeTab st tabId now).openTabs = st.openTabs.eraseIdx idx
        ∧ (closeTab st tabId now).activeTabId = some next.id
        ∧ (closeTab st tabId now).session = some ⟨st.rootFolder,
            if next.path = "" then none else some next.path, now⟩
        ∧ (0 < idx → st.openTabs[idx - 1]? = some next))
    ∧ (st.openTabs.eraseIdx idx = [] →
        (closeTab st tabId now).openTabs = []
        ∧ (closeTab st tabId now).activeTabId = none
        ∧ (closeTab st tabId now).viewContent = ""
        ∧ (closeTab st tabId now).dirty = false
        ∧ (closeTab st tabId now).session = none)
    ∧ (¬ st.activeTabId = some tabId → st.openTabs.eraseIdx idx ≠ [] →
        (closeTab st tabId now).openTabs = st.openTabs.eraseIdx idx
        ∧ (closeTab st tabId now).activeTabId = st.activeTabId
        ∧ (closeTab st tabId now).session = st.session) := by
  refine ⟨?_, ?_, ?_⟩
  · intro hne hact
    have hempf : (st.openTabs.eraseIdx idx).isEmpty = false := by
      cases he : st.openTabs.eraseIdx idx with
      | nil => exact absurd he hne
      | cons a l => rfl
    obtain ⟨hlt, -⟩ := findIdx?_found hidx
    have hlen : (st.openTabs.eraseIdx idx).length = st.openTabs.length - 1 := by
      rw [List.length_eraseIdx]
      simp [hlt]
    have hlen0 : (st.openTabs.eraseIdx idx).length ≠ 0 := by
      intro h0
      exact hne (List.length_eq_zero.mp h0)
    have hidxlt : idx - 1 < (st.openTabs.eraseIdx idx).length := by omega
    obtain ⟨next, hnext⟩ :
        ∃ next, (st.openTabs.eraseIdx idx)[idx - 1]? = some next := by
      rw [List.getElem?_eq_getElem hidxlt]
      exact ⟨_, rfl⟩
    have hstep : closeTab st tabId now =
        saveSessionOp
          (setActiveTab { st with openTabs := st.openTabs.eraseIdx idx } next.id)
          next.path now := by
      simp [closeTab, hidx, hempf, hact, hnext]
    have hfound : ∃ t'', (st.openTabs.eraseIdx idx).find?
        (fun t => t.id == next.id) = some t'' := by
      apply Option.isSome_iff_exists.mp
      rw [List.find?_isSome]
      refine ⟨next, ?_, by simp⟩
      obtain ⟨hl, hget⟩ := List.getElem?_eq_some.mp hnext
      exact hget ▸ List.getElem_mem hl
    obtain ⟨t'', ht''⟩ := hfound
    have ht''id : t''.id = next.id := by
      simpa using List.find?_some ht''
    refine ⟨next, hnext, ?_, ?_, ?_, ?_⟩
    · rw [hstep]
      show (setActiveTab { st with openTabs := st.openTabs.eraseIdx idx }
          next.id).openTabs = st.openTabs.eraseIdx idx
      rw [setActiveTab_openTabs]
    · rw [hstep]
      show (setActiveTab { st with openTabs := st.openTabs.eraseIdx idx }
          next.id).activeTabId = some next.id
      rw [setActiveTab_activeTabId_found ht'', ht''id]
    · rw [hstep, saveSessionOp_session, setActiveTab_rootFolder]
    · intro hpos
      rw [List.getElem?_eraseIdx] at hnext
      rw [if_pos (by omega)] at hnext
      exact hnext
  · intro hempty
    have hemp : (st.openTabs.eraseIdx idx).isEmpty = true := by
      rw [hempty]
      rfl
    have hstep : closeTab st tabId now = { st with
        openTabs := st.openTabs.eraseIdx idx,
        activeTabId := none,
        currentFileName := "No file open",
        currentLanguage := "Plain Text",
        dirty := false,
        viewContent := "",
        session := none } := by
      simp [closeTab, hidx, hemp]
    refine ⟨?_, ?_, ?_, ?_, ?_⟩
    · rw [hstep]
      exact hempty
    · rw [hstep]
    · rw [hstep]
    · rw [hstep]
    · rw [hstep]
  · intro hnact hne
    have hempf : (st.openTabs.eraseIdx idx).isEmpty = false := by
      cases he : st.openTabs.eraseIdx idx with
      | nil => exact absurd he hne
      | cons a l => rfl
    have hstep : closeTab st tabId now
        = { st with openTabs := st.openTabs.eraseIdx idx } := by
      simp [closeTab, hidx, hempf, hnact]
    exact ⟨by rw [hstep], by rw [hstep], by rw [hstep]⟩

/-- Concrete tabs for the close-tab witness. -/
def demoTabA : Tab := ⟨"A", "A", "A", "ca", "Plain Text", false, "ca"⟩

/-- Second concrete tab for the close-tab witness. -/
def demoTabB : Tab := ⟨"B", "B", "B", "cb", "Plain Text", false, "cb"⟩

/-- Third concrete tab for the close-tab witness. -/
def demoTabC : Tab := ⟨"C", "C", "C", "cc", "Plain Text", false, "cc"⟩

/-- Editor state with the three tabs A, B, C and the given active id. -/
def demoSt (act : String) : EditorSt :=
  { openTabs := [demoTabA, demoTabB, demoTabC], activeTabId := some act,
    viewContent := "cb", dirty := false, currentFileName := "f",
    currentLanguage := "l", session := none, rootFolder := none }

/-- Witness for C6: with tabs A, B, C and active B, closing B activates A;
with active C, closing C activates B. -/
theorem closeTab_contract_witness :
    (closeTab (demoSt "B") "B" 5).activeTabId = some "A"
    ∧ (closeTab (demoSt "C") "C" 5).activeTabId = some "B" := by
  constructor
  · obtain ⟨next, hnext, -, hACT, -, -⟩ :=
      (closeTab_contract (demoSt "B") "B" 5 1 (by decide)).1
        (by decide) (by decide)
    have hn : next = demoTabA := by
      have h2 : ((demoSt "B").openTabs.eraseIdx 1)[1 - 1]? = some demoTabA := by
        decide
      rw [hnext] at h2
      injection h2 with h3
    rw [hACT, hn]
    rfl
  · obtain ⟨next, hnext, -, hACT, -, -⟩ :=
      (closeTab_contract (demoSt "C") "C" 5 2 (by decide)).1
        (by decide) (by decide)
    have hn : next = demoTabB := by
      have h2 : ((demoSt "C").openTabs.eraseIdx 2)[2 - 1]? = some demoTabB := by
        decide
      rw [hnext] at h2
      injection h2 with h3
    rw [hACT, hn]
    rfl

theorem activeTab_after_open (st : EditorSt) (tabId p : String) (now : Nat)
    (tab : Tab)
    (hf : st.openTabs.find? (fun t => t.id == tabId) = some tab)
    (hfix : st.openTabs.find? (fun t => t.id == tab.id) = some tab) :
    (saveSessionOp (setActiveTab st tabId) p now).activeTab = some tab := by
  have haid : (saveSessionOp (setActiveTab st tabId) p now).activeTabId
      = some tab.id := setActiveTab_activeTabId_found hf
  simp only [EditorSt.activeTab, haid]
  have hop : (saveSessionOp (setActiveTab st tabId) p now).openTabs
      = st.openTabs := setActiveTab_openTabs st tabId
  rw [hop]
  exact hfix

theorem session_after_open (st : EditorSt) (tabId p : String) (now : Nat)
    (hp : p ≠ "") :
    (saveSessionOp (setActiveTab st tabId) p now).session
      = some ⟨st.rootFolder, some p, now⟩ := by
  rw [saveSessionOp_session, setActiveTab_rootFolder, if_neg hp]

/-- Concrete run for the session counterexample: open a.txt then b.txt,
then activate a.txt directly from the tab bar. -/
def run4 : EditorSt := setActiveTab run2 "a.txt"

theorem run4_reachable : Reachable run4 :=
  Relation.ReflTransGen.tail run2_reachable (Step.activate run2 "a.txt")

/-- C9 counterexample: direct tab activation does not persist the session.
At the reachable state obtained by opening a.txt, then b.txt, then
activating a.txt from the tab bar, the active tab is a.txt with path
a.txt, yet the persisted session record still carries currentFilePath
b.txt from the earlier open - setActiveTab writes no session record. -/
theorem setActiveTab_skips_session :
    Reachable run4
    ∧ run4.activeTab = some ⟨"a.txt", "a.txt", "a.txt", "x", "Plain Text", false, "x"⟩
    ∧ run4.session = some ⟨none, some "b.txt", 1⟩
    ∧ ("b.txt" : String) ≠ "a.txt" :=
  ⟨run4_reachable, by decide, by decide, by decide⟩

/-- C9 amended: session persistence on open. After every openFile call at a
reachable state whose derived tab id is non-empty, a tab with that id is
active and the session record is persisted with folderName the root folder
and currentFilePath the newly active tab's path at the given timestamp;
direct activation of a tab through setActiveTab never changes the
persisted session record. -/
theorem openFile_persists_session (st : EditorSt) (hst : Reachable st)
    (handleName fileContent path : String) (now : Nat)
    (hid : openTabId handleName path ≠ "") :
    (∃ t, (openFile st handleName fileContent path now).activeTab = some t
      ∧ (openFile st handleName fileContent path now).session
          = some ⟨st.rootFolder, some t.path, now⟩)
    ∧ ∀ tabId, (setActiveTab st tabId).session = st.session := by
  obtain ⟨h1, h2, h3, h4⟩ := reachable_inv hst
  refine ⟨?_, fun tabId => setActiveTab_session st tabId⟩
  cases hf : st.openTabs.find? (fun t => t.id == openTabId handleName path) with
  | some existing =>
    have hmem := List.mem_of_find?_eq_some hf
    have hexid : existing.id = openTabId handleName path := by
      simpa using List.find?_some hf
    have hexpath : ¬ existing.path = "" := by
      rw [← h2 existing hmem, hexid]
      exact hid
    have hfound : ∃ t'', st.openTabs.find? (fun x => x.id == existing.id)
        = some t'' := by
      apply Option.isSome_iff_exists.mp
      rw [List.find?_isSome]
      exact ⟨existing, hmem, by simp⟩
    obtain ⟨t'', ht''⟩ := hfound
    have ht''mem := List.mem_of_find?_eq_some ht''
    have ht''id : t''.id = existing.id := by
      simpa using List.find?_some ht''
    have ht''eq : t'' = existing :=
      List.inj_on_of_nodup_map h1 ht''mem hmem ht''id
    rw [ht''eq] at ht''
    simp only [openFile, hf]
    refine ⟨existing, ?_, ?_⟩
    · exact activeTab_after_open _ _ _ _ _ ht'' ht''
    · rw [if_neg hexpath]
      exact session_after_open st existing.id existing.path now hexpath
  | none =>
    simp only [openFile, hf]
    have hfind : (st.openTabs ++
        [(⟨openTabId handleName path, handleName, openTabId handleName path, fileContent, languageFromFileName handleName, false, fileContent⟩ : Tab)]).find?
          (fun t => t.id == openTabId handleName path)
        = some ⟨openTabId handleName path, handleName, openTabId handleName path, fileContent, languageFromFileName handleName, false, fileContent⟩ := by
      rw [List.find?_append, hf]
      simp
    refine ⟨⟨openTabId handleName path, handleName, openTabId handleName path, fileContent, languageFromFileName handleName, false, fileContent⟩, ?_, ?_⟩
    · exact activeTab_after_open _ _ _ _ _ hfind hfind
    · exact session_after_open _ _ _ _ hid

/-- Witness for C9 amended: opening a.txt at the initial state persists
the session with the new tab path, and activation never changes the
session. -/
theorem openFile_persists_session_witness :
    (∃ t, (openFile initSt "a.txt" "x" "a.txt" 7).activeTab = some t
      ∧ (openFile initSt "a.txt" "x" "a.txt" 7).session
          = some ⟨initSt.rootFolder, some t.path, 7⟩)
    ∧ ∀ tabId, (setActiveTab initSt tabId).session = initSt.session :=
  openFile_persists_session initSt Relation.ReflTransGen.refl
    "a.txt" "x" "a.txt" 7 (by decide)
